import Mathlib

/-!
# Verification of the AYNEC dataset generator (DataGen.py)

This file gives a shallow embedding in Lean 4 of the core algorithms of the
AYNEC knowledge-graph dataset generator and proves (or refutes) the claims of
its specification.  Entities and relation names are modelled as natural
numbers; an edge is the triple (relation, source, target), matching the tuple
order used by the Python code.  Python floats are modelled as rationals.
Random draws are modelled as explicit oracle functions supplying the values
that the random primitives would return.
-/

namespace AYNEC

/-- An edge of the knowledge graph: (relation, source, target), the tuple
order used in `DataGen.py` (`edges.add((relationship, source, target))`). -/
abbrev Edge : Type := ℕ × ℕ × ℕ

/-! ## Splitter (`DatasetsGenerator.split_graph`, lines 442-476)

For a single relation and fold index `i`, the code computes
`offset = floor(len(edges) / number_splits * i)` and
`num_test = floor(len(edges) * fraction_test)`, then takes the circular
window of `num_test` indices starting at `offset` (mod N) as the test ids
and the remaining wrap-around indices as the train ids. -/

/-- Line 468: `offset = floor(len(edges) / self.number_splits * i)`;
Python `/` is float division, modelled by rational division. -/
def splitOffset (edges : List Edge) (numberSplits i : ℕ) : ℕ :=
  (⌊(edges.length : ℚ) / (numberSplits : ℚ) * (i : ℚ)⌋).toNat

/-- Line 470: `num_test = floor(len(edges) * fraction_test)`. -/
def splitNumTest (edges : List Edge) (fracTest : ℚ) : ℕ :=
  (⌊(edges.length : ℚ) * fracTest⌋).toNat

/-- The per-relation body of `split_graph` (lines 467-474): returns the
(train, test) edge lists of one relation for fold `i`.
`ids_test = [(offset + x) % N for x in range(0, num_test)]`,
`ids_train = [(offset + x) % N for x in range(num_test, N)]`,
then the ids index into the edge list. -/
def splitRelEdges (edges : List Edge) (numberSplits i : ℕ) (fracTest : ℚ) :
    List Edge × List Edge :=
  let N := edges.length
  let offset := splitOffset edges numberSplits i
  let numTest := splitNumTest edges fracTest
  let idsTest := (List.range numTest).map (fun x => (offset + x) % N)
  let idsTrain := (List.range' numTest (N - numTest)).map (fun x => (offset + x) % N)
  (idsTrain.map (fun id => edges.getD id (0, 0, 0)),
   idsTest.map (fun id => edges.getD id (0, 0, 0)))

lemma splitNumTest_le_length (edges : List Edge) (fracTest : ℚ)
    (hf1 : fracTest ≤ 1) : splitNumTest edges fracTest ≤ edges.length := by
  have h1 : (edges.length : ℚ) * fracTest ≤ (edges.length : ℚ) := by
    calc (edges.length : ℚ) * fracTest ≤ (edges.length : ℚ) * 1 := by
          exact mul_le_mul_of_nonneg_left hf1 (by positivity)
      _ = (edges.length : ℚ) := mul_one _
  have h2 : ⌊(edges.length : ℚ) * fracTest⌋ ≤ (edges.length : ℤ) := by
    calc ⌊(edges.length : ℚ) * fracTest⌋ ≤ ⌊(edges.length : ℚ)⌋ := Int.floor_le_floor h1
      _ = (edges.length : ℤ) := Int.floor_natCast _
  exact Int.toNat_le.mpr (by exact_mod_cast h2)

lemma splitRel_append_eq_rotate (edges : List Edge) (numberSplits i : ℕ) (fracTest : ℚ)
    (hf1 : fracTest ≤ 1) :
    (splitRelEdges edges numberSplits i fracTest).2 ++
        (splitRelEdges edges numberSplits i fracTest).1
      = edges.rotate (splitOffset edges numberSplits i) := by
  have hNT : splitNumTest edges fracTest ≤ edges.length :=
    splitNumTest_le_length edges fracTest hf1
  set N := edges.length with hN
  set offset := splitOffset edges numberSplits i with hoff
  set numTest := splitNumTest edges fracTest with hnt
  have hlen : ((splitRelEdges edges numberSplits i fracTest).2 ++
      (splitRelEdges edges numberSplits i fracTest).1).length = N := by
    simp only [splitRelEdges, List.length_append, List.length_map, List.length_range,
      List.length_range']
    omega
  apply List.ext_getElem
  · rw [hlen, List.length_rotate]
  · intro n h1 h2
    have hnN : n < N := by rw [hlen] at h1; exact h1
    have hN0 : 0 < N := lt_of_le_of_lt (Nat.zero_le n) hnN
    have hmod : (offset + n) % N < N := Nat.mod_lt _ hN0
    have hrhs := List.getElem_rotate edges offset n h2
    rw [hrhs]
    by_cases hcase : n < numTest
    · have h1' : n < ((splitRelEdges edges numberSplits i fracTest).2).length := by
        simp only [splitRelEdges, List.length_map, List.length_range]
        exact hcase
      rw [List.getElem_append n h1]
      rw [dif_pos h1']
      simp only [splitRelEdges, List.getElem_map, List.getElem_range]
      rw [List.getD_eq_getElem edges (0, 0, 0) hmod]
      congr 1
      rw [Nat.add_comm offset n]
    · have hlen2 : ((splitRelEdges edges numberSplits i fracTest).2).length = numTest := by
        simp only [splitRelEdges, List.length_map, List.length_range]
      have h1' : ¬ n < ((splitRelEdges edges numberSplits i fracTest).2).length := by
        rw [hlen2]; exact hcase
      rw [List.getElem_append n h1, dif_neg h1']
      simp only [splitRelEdges, List.getElem_map, List.getElem_range', List.length_map,
        List.length_range]
      rw [List.getD_eq_getElem edges (0, 0, 0) (by
        have hx : numTest + 1 * (n - numTest) = n := by omega
        rw [hx]; exact hmod)]
      congr 1
      have hx : numTest + 1 * (n - numTest) = n := by omega
      rw [hx, Nat.add_comm offset n]

/-- C1: For every fold index `i` and every relation with `N` ordered (duplicate-free)
edges, `split_graph` puts into the test bucket exactly the circular window of
`num_test = floor(N * fraction_test)` edges starting at
`offset = floor(N / number_of_splits * i)` (indices mod `N`), puts all remaining
edges into the train bucket, the two buckets are disjoint, and together they
reproduce exactly that relation's edge set with no edge lost or duplicated.
This is expressed by: the test bucket has length `num_test`, the train bucket the
remaining `N - num_test` edges, test followed by train is exactly the rotation of
the edge list by `offset` (so test is the circular window at `offset` and train the
rest), the two buckets are disjoint, and their union is a permutation of the edges. -/
theorem C1_split_graph_circular_window (edges : List Edge) (numberSplits i : ℕ)
    (fracTest : ℚ) (hnd : edges.Nodup) (hk : 0 < numberSplits)
    (hf0 : 0 ≤ fracTest) (hf1 : fracTest ≤ 1) :
    ((splitRelEdges edges numberSplits i fracTest).2).length = splitNumTest edges fracTest
    ∧ ((splitRelEdges edges numberSplits i fracTest).1).length
        = edges.length - splitNumTest edges fracTest
    ∧ (splitRelEdges edges numberSplits i fracTest).2 ++
        (splitRelEdges edges numberSplits i fracTest).1
        = edges.rotate (splitOffset edges numberSplits i)
    ∧ ((splitRelEdges edges numberSplits i fracTest).2 ++
        (splitRelEdges edges numberSplits i fracTest).1).Perm edges
    ∧ ((splitRelEdges edges numberSplits i fracTest).2).Disjoint
        (splitRelEdges edges numberSplits i fracTest).1 := by
  have hrot := splitRel_append_eq_rotate edges numberSplits i fracTest hf1
  have hperm : ((splitRelEdges edges numberSplits i fracTest).2 ++
      (splitRelEdges edges numberSplits i fracTest).1).Perm edges := by
    rw [hrot]; exact edges.rotate_perm _
  have hnodup : ((splitRelEdges edges numberSplits i fracTest).2 ++
      (splitRelEdges edges numberSplits i fracTest).1).Nodup := by
    rw [hrot]; exact List.nodup_rotate.mpr hnd
  refine ⟨?_, ?_, hrot, hperm, (List.nodup_append.mp hnodup).2.2⟩
  · simp only [splitRelEdges, List.length_map, List.length_range]
  · simp only [splitRelEdges, List.length_map, List.length_range']

/-- Witness for C1 at a concrete relation: five edges of relation 1, one fold,
test fraction 1/5. -/
theorem C1_split_graph_circular_window_witness :
    ((splitRelEdges [(1,2,3),(1,4,5),(1,6,7),(1,8,9),(1,10,11)] 1 0 (1/5)).2).length
        = splitNumTest [(1,2,3),(1,4,5),(1,6,7),(1,8,9),(1,10,11)] (1/5)
    ∧ ((splitRelEdges [(1,2,3),(1,4,5),(1,6,7),(1,8,9),(1,10,11)] 1 0 (1/5)).1).length
        = ([(1,2,3),(1,4,5),(1,6,7),(1,8,9),(1,10,11)] : List Edge).length
            - splitNumTest [(1,2,3),(1,4,5),(1,6,7),(1,8,9),(1,10,11)] (1/5)
    ∧ (splitRelEdges [(1,2,3),(1,4,5),(1,6,7),(1,8,9),(1,10,11)] 1 0 (1/5)).2 ++
        (splitRelEdges [(1,2,3),(1,4,5),(1,6,7),(1,8,9),(1,10,11)] 1 0 (1/5)).1
        = ([(1,2,3),(1,4,5),(1,6,7),(1,8,9),(1,10,11)] : List Edge).rotate
            (splitOffset [(1,2,3),(1,4,5),(1,6,7),(1,8,9),(1,10,11)] 1 0)
    ∧ ((splitRelEdges [(1,2,3),(1,4,5),(1,6,7),(1,8,9),(1,10,11)] 1 0 (1/5)).2 ++
        (splitRelEdges [(1,2,3),(1,4,5),(1,6,7),(1,8,9),(1,10,11)] 1 0 (1/5)).1).Perm
        [(1,2,3),(1,4,5),(1,6,7),(1,8,9),(1,10,11)]
    ∧ ((splitRelEdges [(1,2,3),(1,4,5),(1,6,7),(1,8,9),(1,10,11)] 1 0 (1/5)).2).Disjoint
        (splitRelEdges [(1,2,3),(1,4,5),(1,6,7),(1,8,9),(1,10,11)] 1 0 (1/5)).1 :=
  C1_split_graph_circular_window [(1,2,3),(1,4,5),(1,6,7),(1,8,9),(1,10,11)] 1 0 (1/5)
    (by decide) (by decide) (by norm_num) (by norm_num)

/-! ## InverseDetector (`DatasetsGenerator.find_inverses`, lines 388-413)

The code iterates over `itertools.combinations(self.relations, 2)` — all
unordered pairs of distinct positions of the relation sequence — and flags a
pair when every `(s, t)` edge of the first has a `(t, s)` mirror in the second
and vice versa.  `grouped_edges` maps a relation to its `(source, target)`
pairs; sets are modelled as lists with membership. -/

/-- Model of `itertools.combinations(l, 2)`: all pairs `(l[i], l[j])` with `i < j`. -/
def combinations2 {α : Type} : List α → List (α × α)
  | [] => []
  | x :: xs => (xs.map (fun y => (x, y))) ++ combinations2 xs

/-- Lines 403-404: `is_inverse = all((e[1], e[0]) in edges2 for e in edges1)
and all((e[1], e[0]) in edges1 for e in edges2)`. -/
def isInverse (grouped : ℕ → List (ℕ × ℕ)) (r1 r2 : ℕ) : Bool :=
  ((grouped r1).all (fun e => decide ((e.2, e.1) ∈ grouped r2))) &&
    ((grouped r2).all (fun e => decide ((e.2, e.1) ∈ grouped r1)))

/-- Lines 400-407: the list `inverse_tuples` built by `find_inverses`. -/
def findInverseTuples (relations : List ℕ) (grouped : ℕ → List (ℕ × ℕ)) :
    List (ℕ × ℕ) :=
  (combinations2 relations).filter (fun p => isInverse grouped p.1 p.2)

/-- Every edge of `r1` has its reversed mirror among the edges of `r2`. -/
def MirrorsInto (grouped : ℕ → List (ℕ × ℕ)) (r1 r2 : ℕ) : Prop :=
  ∀ e ∈ grouped r1, (e.2, e.1) ∈ grouped r2

lemma mem_combinations2 {α : Type} {l : List α} {a b : α}
    (h : (a, b) ∈ combinations2 l) : a ∈ l ∧ b ∈ l := by
  induction l with
  | nil => simp [combinations2] at h
  | cons x xs ih =>
    simp only [combinations2, List.mem_append, List.mem_map] at h
    rcases h with ⟨y, hy, he⟩ | h
    · cases he
      exact ⟨List.mem_cons_self _ _, List.mem_cons_of_mem _ hy⟩
    · rcases ih h with ⟨ha, hb⟩
      exact ⟨List.mem_cons_of_mem _ ha, List.mem_cons_of_mem _ hb⟩

lemma combinations2_ne {α : Type} {l : List α} (hnd : l.Nodup) {a b : α}
    (h : (a, b) ∈ combinations2 l) : a ≠ b := by
  induction l with
  | nil => simp [combinations2] at h
  | cons x xs ih =>
    simp only [combinations2, List.mem_append, List.mem_map] at h
    rcases h with ⟨y, hy, he⟩ | h
    · cases he
      intro hab
      exact (List.nodup_cons.mp hnd).1 (hab ▸ hy)
    · exact ih (List.nodup_cons.mp hnd).2 h

lemma combinations2_complete {α : Type} {l : List α} {a b : α}
    (ha : a ∈ l) (hb : b ∈ l) (hab : a ≠ b) :
    (a, b) ∈ combinations2 l ∨ (b, a) ∈ combinations2 l := by
  induction l with
  | nil => simp at ha
  | cons x xs ih =>
    rcases List.mem_cons.mp ha with rfl | ha'
    · have hb' : b ∈ xs := by
        rcases List.mem_cons.mp hb with rfl | hb'
        · exact absurd rfl hab
        · exact hb'
      exact Or.inl (by
        simp only [combinations2, List.mem_append, List.mem_map]
        exact Or.inl ⟨b, hb', rfl⟩)
    · rcases List.mem_cons.mp hb with rfl | hb'
      · exact Or.inr (by
          simp only [combinations2, List.mem_append, List.mem_map]
          exact Or.inl ⟨a, ha', rfl⟩)
      · rcases ih ha' hb' with h | h
        · exact Or.inl (by simp only [combinations2, List.mem_append]; exact Or.inr h)
        · exact Or.inr (by simp only [combinations2, List.mem_append]; exact Or.inr h)

lemma isInverse_iff (grouped : ℕ → List (ℕ × ℕ)) (r1 r2 : ℕ) :
    isInverse grouped r1 r2 = true ↔
      MirrorsInto grouped r1 r2 ∧ MirrorsInto grouped r2 r1 := by
  simp only [isInverse, Bool.and_eq_true, List.all_eq_true, decide_eq_true_eq,
    MirrorsInto]

/-- C3: `find_inverses` records a pair `(r1, r2)` in `inverse_tuples` (in one of
the two orders) iff `r1` and `r2` are distinct relations such that every edge of
`r1` has its reversed mirror in `r2` and vice versa; a recorded pair always
satisfies the bidirectional mirror condition, a one-directional subset match is
never recorded, and no relation is ever recorded as its own inverse. -/
theorem C3_find_inverses_bidirectional (relations : List ℕ)
    (grouped : ℕ → List (ℕ × ℕ)) (hnd : relations.Nodup) :
    (∀ r1 r2, (r1, r2) ∈ findInverseTuples relations grouped →
      r1 ≠ r2 ∧ MirrorsInto grouped r1 r2 ∧ MirrorsInto grouped r2 r1)
    ∧ (∀ r1 r2, r1 ∈ relations → r2 ∈ relations → r1 ≠ r2 →
        MirrorsInto grouped r1 r2 → MirrorsInto grouped r2 r1 →
        (r1, r2) ∈ findInverseTuples relations grouped ∨
          (r2, r1) ∈ findInverseTuples relations grouped)
    ∧ (∀ r, (r, r) ∉ findInverseTuples relations grouped) := by
  refine ⟨?_, ?_, ?_⟩
  · intro r1 r2 h
    have hmem := List.mem_filter.mp h
    have hne := combinations2_ne hnd hmem.1
    have hmirror := (isInverse_iff grouped r1 r2).mp (by simpa using hmem.2)
    exact ⟨hne, hmirror.1, hmirror.2⟩
  · intro r1 r2 h1 h2 hne hm12 hm21
    have hinv12 : isInverse grouped r1 r2 = true :=
      (isInverse_iff grouped r1 r2).mpr ⟨hm12, hm21⟩
    have hinv21 : isInverse grouped r2 r1 = true :=
      (isInverse_iff grouped r2 r1).mpr ⟨hm21, hm12⟩
    rcases combinations2_complete h1 h2 hne with h | h
    · exact Or.inl (List.mem_filter.mpr ⟨h, by simpa using hinv12⟩)
    · exact Or.inr (List.mem_filter.mpr ⟨h, by simpa using hinv21⟩)
  · intro r h
    exact combinations2_ne hnd (List.mem_filter.mp h).1 rfl

/-- A concrete two-relation graph where relation 0 (edges `{(10, 11)}`) and
relation 1 (edges `{(11, 10)}`) mirror each other. -/
def groupedExample : ℕ → List (ℕ × ℕ) :=
  fun r => if r = 0 then [(10, 11)] else if r = 1 then [(11, 10)] else []

/-- Witness for C3: on `groupedExample`, relations 0 and 1 are mutual mirrors
and `find_inverses` records the pair in one of the two orders. -/
theorem C3_find_inverses_bidirectional_witness :
    (0, 1) ∈ findInverseTuples [0, 1] groupedExample ∨
      (1, 0) ∈ findInverseTuples [0, 1] groupedExample :=
  (C3_find_inverses_bidirectional [0, 1] groupedExample (by decide)).2.1 0 1
    (by decide) (by decide) (by decide)
    ((isInverse_iff groupedExample 0 1).mp (by decide)).1
    ((isInverse_iff groupedExample 0 1).mp (by decide)).2

/-! ## The `inverses_dict` construction (lines 409-413)

```python
for r1 in self.relations:
    self.inverses_dict[r1] = set()
    for r2 in self.relations:
        if (r1, r2) or (r2, r1) in self.inverse_tuples:
            self.inverses_dict[r1].add(r2)
```
Python parses the condition as `(r1, r2) or ((r2, r1) in self.inverse_tuples)`
and a non-empty tuple is always truthy, so the condition is always true. -/

/-- The condition at line 412 as Python evaluates it: `bool((r1, r2))` is
`True` for the two-element tuple, short-circuiting the `or`. -/
def line412Cond (r1 r2 : ℕ) (tuples : List (ℕ × ℕ)) : Bool :=
  true || decide ((r2, r1) ∈ tuples)

/-- The set `inverses_dict[r1]` built by lines 409-413, as a list. -/
def inversesDict (relations : List ℕ) (tuples : List (ℕ × ℕ)) (r1 : ℕ) : List ℕ :=
  relations.filter (fun r2 => line412Cond r1 r2 tuples)

/-- C2 is false of the code: with relations `{0, 1}` and an *empty*
`inverse_tuples`, relation 1 is nevertheless a member of `inverses_dict[0]`
(the line-412 condition is always true), even though neither `(0, 1)` nor
`(1, 0)` appears in `inverse_tuples`. -/
theorem C2_inverses_dict_always_true_eval :
    1 ∈ inversesDict [0, 1] [] 0
    ∧ ¬ ((0, 1) ∈ ([] : List (ℕ × ℕ)) ∨ (1, 0) ∈ ([] : List (ℕ × ℕ)))
    ∧ inversesDict [0, 1] [] 0 = [0, 1] := by
  refine ⟨by decide, by simp, by decide⟩

/-! ## Pruner (`DatasetsGenerator.read`, lines 229-252, and `remove_rels`,
lines 374-386)

`candidate_rels` keeps the (relation, frequency) pairs with frequency at least
`min_num_rel`, in encounter order, then sorts them by descending frequency with
Python's stable `list.sort`; the loop then accepts relations one by one,
accumulating `amount / len(self.edges)`, and breaks right after the accumulated
fraction first reaches `reach_fraction`.  Python's stable sort is modelled by a
stable insertion sort. -/

/-- Insert a pair into a descending-sorted list, before the first entry with a
frequency less than or equal to its own (keeping earlier-encountered pairs of
equal frequency in front is what Python's stable sort does). -/
def insertDesc (p : ℕ × ℕ) : List (ℕ × ℕ) → List (ℕ × ℕ)
  | [] => [p]
  | q :: qs => if q.2 ≤ p.2 then p :: q :: qs else q :: insertDesc p qs

/-- Stable sort by descending frequency (`candidate_rels.sort(key=..., reverse=True)`,
line 231). -/
def sortDesc : List (ℕ × ℕ) → List (ℕ × ℕ)
  | [] => []
  | p :: ps => insertDesc p (sortDesc ps)

/-- Lines 230-231: filter by the frequency minimum, then rank descending. -/
def candidateRels (grouped : List (ℕ × ℕ)) (minNum : ℕ) : List (ℕ × ℕ) :=
  sortDesc (grouped.filter (fun p => decide (minNum ≤ p.2)))

/-- The acceptance loop of lines 237-247: accept each candidate, add
`amount / total` to the accumulated fraction, and break once the accumulated
fraction reaches `reach_fraction` (the crossing relation is kept). -/
def acceptRels (total : ℕ) (reach : ℚ) : List (ℕ × ℕ) → ℚ → List (ℕ × ℕ)
  | [], _ => []
  | p :: ps, acc =>
    if reach ≤ acc + (p.2 : ℚ) / (total : ℚ) then [p]
    else p :: acceptRels total reach ps (acc + (p.2 : ℚ) / (total : ℚ))

/-- The list `accepted_rels` as computed by `read` (lines 230-247). -/
def acceptedRels (grouped : List (ℕ × ℕ)) (total minNum : ℕ) (reach : ℚ) :
    List (ℕ × ℕ) :=
  acceptRels total reach (candidateRels grouped minNum) 0

/-- The running accumulated fraction of a list of candidates. -/
def runSum (total : ℕ) (l : List (ℕ × ℕ)) : ℚ :=
  (l.map (fun p => (p.2 : ℚ) / (total : ℚ))).sum

/-- Effect of `remove_rels` on the edge set (line 381):
`self.edges = set(filter(lambda e: e[0] not in removed_rels, self.edges))`. -/
def removeRelsEdges (edges : List Edge) (removed : List ℕ) : List Edge :=
  edges.filter (fun e => decide (e.1 ∉ removed))

lemma runSum_cons (total : ℕ) (p : ℕ × ℕ) (l : List (ℕ × ℕ)) :
    runSum total (p :: l) = (p.2 : ℚ) / (total : ℚ) + runSum total l := by
  simp [runSum]

lemma runSum_append (total : ℕ) (l₁ l₂ : List (ℕ × ℕ)) :
    runSum total (l₁ ++ l₂) = runSum total l₁ + runSum total l₂ := by
  simp [runSum]

lemma runSum_eq_sum_div (total : ℕ) (l : List (ℕ × ℕ)) :
    runSum total l = ((l.map (fun p => (p.2 : ℚ))).sum) / (total : ℚ) := by
  induction l with
  | nil => simp [runSum]
  | cons p ps ih => rw [runSum_cons, ih]; simp [add_div]

lemma runSum_nonneg (total : ℕ) (l : List (ℕ × ℕ)) : 0 ≤ runSum total l := by
  apply List.sum_nonneg
  intro x hx
  simp only [List.mem_map] at hx
  obtain ⟨p, _, rfl⟩ := hx
  positivity

lemma insertDesc_perm (p : ℕ × ℕ) (l : List (ℕ × ℕ)) :
    (insertDesc p l).Perm (p :: l) := by
  induction l with
  | nil => simp [insertDesc]
  | cons q qs ih =>
    simp only [insertDesc]
    split
    · exact List.Perm.refl _
    · exact (ih.cons q).trans (List.Perm.swap p q qs)

lemma sortDesc_perm (l : List (ℕ × ℕ)) : (sortDesc l).Perm l := by
  induction l with
  | nil => simp [sortDesc]
  | cons p ps ih => exact (insertDesc_perm p (sortDesc ps)).trans (ih.cons p)

lemma insertDesc_sorted {l : List (ℕ × ℕ)} (p : ℕ × ℕ)
    (h : l.Sorted (fun a b => b.2 ≤ a.2)) :
    (insertDesc p l).Sorted (fun a b => b.2 ≤ a.2) := by
  induction l with
  | nil => simp [insertDesc]
  | cons q qs ih =>
    rw [List.sorted_cons] at h
    simp only [insertDesc]
    split
    · rename_i hq
      rw [List.sorted_cons]
      refine ⟨?_, List.sorted_cons.mpr h⟩
      intro b hb
      rcases List.mem_cons.mp hb with rfl | hb'
      · exact hq
      · exact le_trans (h.1 b hb') hq
    · rename_i hq
      rw [List.sorted_cons]
      refine ⟨?_, ih h.2⟩
      intro b hb
      rcases List.mem_cons.mp ((insertDesc_perm p qs).mem_iff.mp hb) with hbp | hb'
      · rw [hbp]; exact le_of_lt (not_le.mp hq)
      · exact h.1 b hb'

lemma sortDesc_sorted (l : List (ℕ × ℕ)) :
    (sortDesc l).Sorted (fun a b => b.2 ≤ a.2) := by
  induction l with
  | nil => simp [sortDesc]
  | cons p ps ih => exact insertDesc_sorted p ih

lemma insertDesc_filter_count (p : ℕ × ℕ) (c : ℕ) (l : List (ℕ × ℕ))
    (hs : l.Sorted (fun a b => b.2 ≤ a.2)) :
    (insertDesc p l).filter (fun q => decide (q.2 = c)) =
      if p.2 = c then p :: l.filter (fun q => decide (q.2 = c))
      else l.filter (fun q => decide (q.2 = c)) := by
  induction l with
  | nil =>
    by_cases hc : p.2 = c <;> simp [insertDesc, List.filter_cons, hc]
  | cons q qs ih =>
    rw [List.sorted_cons] at hs
    by_cases hq : q.2 ≤ p.2
    · rw [show insertDesc p (q :: qs) = p :: q :: qs by
        simp only [insertDesc]; rw [if_pos hq]]
      by_cases hc : p.2 = c <;> simp [List.filter_cons, hc]
    · rw [show insertDesc p (q :: qs) = q :: insertDesc p qs by
        simp only [insertDesc]; rw [if_neg hq]]
      have hqp : p.2 < q.2 := not_le.mp hq
      have hih := ih hs.2
      by_cases hqc : q.2 = c
      · have hpc : ¬ p.2 = c := by omega
        simp [List.filter_cons, hqc, hpc, hih]
      · by_cases hc : p.2 = c <;> simp [List.filter_cons, hqc, hc, hih]

lemma sortDesc_stable (l : List (ℕ × ℕ)) (c : ℕ) :
    (sortDesc l).filter (fun q => decide (q.2 = c)) =
      l.filter (fun q => decide (q.2 = c)) := by
  induction l with
  | nil => rfl
  | cons p ps ih =>
    simp only [sortDesc]
    rw [insertDesc_filter_count p c (sortDesc ps) (sortDesc_sorted ps), List.filter_cons]
    by_cases hc : p.2 = c
    · rw [if_pos hc, ih, if_pos (by simp [hc])]
    · rw [if_neg hc, ih, if_neg (by simp [hc])]

lemma acceptRels_isPrefixOf (total : ℕ) (reach : ℚ) (l : List (ℕ × ℕ)) :
    ∀ acc : ℚ, ∃ rest, l = acceptRels total reach l acc ++ rest := by
  induction l with
  | nil => intro acc; exact ⟨[], rfl⟩
  | cons p ps ih =>
    intro acc
    simp only [acceptRels]
    split
    · exact ⟨ps, rfl⟩
    · obtain ⟨rest, hrest⟩ := ih (acc + (p.2 : ℚ) / (total : ℚ))
      exact ⟨rest, by rw [List.cons_append]; exact congrArg (p :: ·) hrest⟩

lemma acceptRels_take_lt (total : ℕ) (reach : ℚ) (l : List (ℕ × ℕ)) :
    ∀ (acc : ℚ) (k : ℕ), k + 1 < (acceptRels total reach l acc).length →
      acc + runSum total ((acceptRels total reach l acc).take (k + 1)) < reach := by
  induction l with
  | nil => intro acc k h; simp [acceptRels] at h
  | cons p ps ih =>
    intro acc k h
    by_cases hc : reach ≤ acc + (p.2 : ℚ) / (total : ℚ)
    · rw [acceptRels, if_pos hc] at h
      simp at h
    · rw [acceptRels, if_neg hc] at h ⊢
      cases k with
      | zero =>
        simp only [List.take_succ_cons, List.take_zero, runSum_cons, runSum]
        simpa using not_le.mp hc
      | succ k' =>
        rw [List.take_succ_cons, runSum_cons]
        have h' : k' + 1 < (acceptRels total reach ps (acc + (p.2 : ℚ) / (total : ℚ))).length := by
          simp only [List.length_cons] at h
          omega
        have := ih (acc + (p.2 : ℚ) / (total : ℚ)) k' h'
        linarith

lemma acceptRels_crossed (total : ℕ) (reach : ℚ) (l : List (ℕ × ℕ)) :
    ∀ acc : ℚ, acceptRels total reach l acc ≠ l →
      reach ≤ acc + runSum total (acceptRels total reach l acc) := by
  induction l with
  | nil => intro acc h; simp [acceptRels] at h
  | cons p ps ih =>
    intro acc h
    by_cases hc : reach ≤ acc + (p.2 : ℚ) / (total : ℚ)
    · rw [acceptRels, if_pos hc]
      simp only [runSum_cons, runSum]
      simpa using hc
    · rw [acceptRels, if_neg hc] at h ⊢
      have hne : acceptRels total reach ps (acc + (p.2 : ℚ) / (total : ℚ)) ≠ ps := by
        intro heq
        exact h (by rw [heq])
      have := ih (acc + (p.2 : ℚ) / (total : ℚ)) hne
      rw [runSum_cons]
      linarith

lemma sum_counts_filter_le (grouped : List (ℕ × ℕ)) (f : ℕ × ℕ → Bool) :
    (((grouped.filter f).map (fun p => p.2)).sum : ℕ) ≤
      ((grouped.map (fun p => p.2)).sum : ℕ) := by
  induction grouped with
  | nil => simp
  | cons p ps ih =>
    rw [List.filter_cons]
    by_cases hf : f p
    · rw [if_pos hf]
      simp only [List.map_cons, List.sum_cons]
      omega
    · rw [if_neg hf]
      simp only [List.map_cons, List.sum_cons]
      omega

/-- C4: pruning keeps exactly the relations obtained by ranking the relations
with at least `min_num_rel` edges in descending frequency order (ties broken by
encounter order: frequency classes keep their original order), accepting them
one by one accumulating `frequency / total`, stopping at and including the first
relation at which the running sum reaches `reach_fraction`; every other relation
is dropped together with all of its edges, and with `reach_fraction = 1` every
relation meeting the minimum is kept.  The conjuncts state: the accepted list is
a ranked-candidate-list head; ranking is descending, stable, and a permutation
of the frequency-filtered candidates; every accepted relation meets the minimum;
every non-final running sum is below `reach_fraction`; an early stop only
happens once the running sum reaches `reach_fraction`; `reach_fraction = 1`
keeps all candidates; and every edge surviving `remove_rels` belongs to an
accepted relation. -/
theorem C4_pruning_ranked_coverage (grouped : List (ℕ × ℕ)) (total minNum : ℕ)
    (reach : ℚ) (edges : List Edge) (relations : List ℕ)
    (hEdges : ∀ e ∈ edges, e.1 ∈ relations) :
    (∃ rest, candidateRels grouped minNum =
        acceptedRels grouped total minNum reach ++ rest)
    ∧ (candidateRels grouped minNum).Sorted (fun a b => b.2 ≤ a.2)
    ∧ (candidateRels grouped minNum).Perm
        (grouped.filter (fun p => decide (minNum ≤ p.2)))
    ∧ (∀ c, (candidateRels grouped minNum).filter (fun q => decide (q.2 = c)) =
        (grouped.filter (fun p => decide (minNum ≤ p.2))).filter
          (fun q => decide (q.2 = c)))
    ∧ (∀ p ∈ acceptedRels grouped total minNum reach, minNum ≤ p.2)
    ∧ (∀ k, k + 1 < (acceptedRels grouped total minNum reach).length →
        runSum total ((acceptedRels grouped total minNum reach).take (k + 1)) < reach)
    ∧ (acceptedRels grouped total minNum reach ≠ candidateRels grouped minNum →
        reach ≤ runSum total (acceptedRels grouped total minNum reach))
    ∧ (reach = 1 → 0 < total → (∀ p ∈ grouped, 1 ≤ p.2) →
        (grouped.map (fun p => p.2)).sum ≤ total →
        acceptedRels grouped total minNum reach = candidateRels grouped minNum)
    ∧ (∀ e ∈ removeRelsEdges edges (relations.filter (fun r =>
          decide (r ∉ (acceptedRels grouped total minNum reach).map Prod.fst))),
        e.1 ∈ (acceptedRels grouped total minNum reach).map Prod.fst) := by
  have hpre : ∃ rest, candidateRels grouped minNum =
      acceptedRels grouped total minNum reach ++ rest :=
    acceptRels_isPrefixOf total reach (candidateRels grouped minNum) 0
  have hcrossed : acceptedRels grouped total minNum reach ≠ candidateRels grouped minNum →
      reach ≤ runSum total (acceptedRels grouped total minNum reach) := by
    intro hne
    have := acceptRels_crossed total reach (candidateRels grouped minNum) 0 hne
    simpa using this
  refine ⟨hpre, sortDesc_sorted _, sortDesc_perm _, fun c => sortDesc_stable _ c,
    ?_, ?_, hcrossed, ?_, ?_⟩
  · intro p hp
    obtain ⟨rest, hrest⟩ := hpre
    have hpc : p ∈ candidateRels grouped minNum := by
      rw [hrest]; exact List.mem_append_left _ hp
    have hpf := (sortDesc_perm _).mem_iff.mp hpc
    exact of_decide_eq_true (List.mem_filter.mp hpf).2
  · intro k hk
    have := acceptRels_take_lt total reach (candidateRels grouped minNum) 0 k hk
    simpa using this
  · intro hr htot hpos hsum
    subst hr
    by_contra hne
    have hge := hcrossed hne
    obtain ⟨rest, hrest⟩ := hpre
    have hrestne : rest ≠ [] := by
      intro hrnil
      apply hne
      rw [hrest, hrnil, List.append_nil]
    have htotQ : (0 : ℚ) < (total : ℚ) := by exact_mod_cast htot
    have hsum_cand : runSum total (candidateRels grouped minNum) ≤ 1 := by
      rw [runSum_eq_sum_div, div_le_one htotQ]
      have hperm : ((candidateRels grouped minNum).map (fun p => (p.2 : ℚ))).sum =
          (((grouped.filter (fun p => decide (minNum ≤ p.2))).map
            (fun p => (p.2 : ℚ))).sum) :=
        ((sortDesc_perm _).map _).sum_eq
      rw [hperm]
      have hcast : (((grouped.filter (fun p => decide (minNum ≤ p.2))).map
          (fun p => (p.2 : ℚ))).sum) =
          ((((grouped.filter (fun p => decide (minNum ≤ p.2))).map
            (fun p => p.2)).sum : ℕ) : ℚ) := by
        rw [Nat.cast_list_sum, List.map_map]
        rfl
      rw [hcast]
      have hle := sum_counts_filter_le grouped (fun p => decide (minNum ≤ p.2))
      exact_mod_cast le_trans hle hsum
    have hrest_pos : 0 < runSum total rest := by
      obtain ⟨r, rest', hrr⟩ := List.exists_cons_of_ne_nil hrestne
      have hrc : r ∈ candidateRels grouped minNum := by
        rw [hrest, hrr]
        exact List.mem_append_right _ (List.mem_cons_self _ _)
      have hrg : r ∈ grouped :=
        List.mem_of_mem_filter ((sortDesc_perm _).mem_iff.mp hrc)
      have hr1 : 1 ≤ r.2 := hpos r hrg
      have hrpos : (0 : ℚ) < (r.2 : ℚ) / (total : ℚ) := by
        apply div_pos _ htotQ
        exact_mod_cast Nat.lt_of_lt_of_le Nat.zero_lt_one hr1
      rw [hrr, runSum_cons]
      have := runSum_nonneg total rest'
      linarith
    have hsplit : runSum total (candidateRels grouped minNum) =
        runSum total (acceptedRels grouped total minNum 1) + runSum total rest := by
      rw [hrest, runSum_append]
    linarith
  · intro e he
    have hm := List.mem_filter.mp he
    have h2 := of_decide_eq_true hm.2
    by_contra hnotacc
    apply h2
    exact List.mem_filter.mpr ⟨hEdges e hm.1, decide_eq_true hnotacc⟩

/-- Witness for C4 at a concrete graph: relations 0 (1 edge) and 1 (3 edges),
4 edges in total, `min_num_rel = 1`, `reach_fraction = 1`: both relations
are kept. -/
theorem C4_pruning_ranked_coverage_witness :
    acceptedRels [(0, 1), (1, 3)] 4 1 1 = candidateRels [(0, 1), (1, 3)] 1 :=
  (C4_pruning_ranked_coverage [(0, 1), (1, 3)] 4 1 1 [(0, 9, 9), (1, 8, 8)] [0, 1]
    (by decide)).2.2.2.2.2.2.2.1 rfl (by decide) (by decide) (by decide)

/-! ## NegativeSampler, random strategies
(`DatasetsGenerator.generate_negatives_random`, lines 551-626)

The per-endpoint retry loop (lines 591-603 for the source, 610-621 for the
target) is:

```python
attempts = 0
found = False
while not found and len(candidates) > 1 and attempts <= 20:
    if attempts > 10:
        candidates = <switched pool>
    attempts += 1
    value = sample(candidates, 1)[0]
    found = value != original
    if not found:
        value = None
```

Entering the loop body with `attempts = a` performs draw number `a + 1`; the
loop admits entries with `a ≤ 20`, hence up to 21 draws.  The pool switch is
executed inside iterations entered with `a ≥ 11` (i.e. from the 12th draw on),
and the pool seen by the `len(candidates) > 1` guard is the switched pool from
entries with `a ≥ 12` on.  The random `sample` is modelled by an oracle `draw`
giving the index picked at each attempt counter value. -/

/-- The retry loop, parametrised by the attempt counter `a` at entry and fuel
(the fuel is structural; `negSearch` supplies enough for all 21 draws).
Returns the found value (`none` models Python's `None`, i.e. the negative will
be dropped) together with the number of draws performed. -/
def negSearchAux (orig : ℕ) (pool0 poolSwitch : List ℕ) (draw : ℕ → ℕ) :
    ℕ → ℕ → Option ℕ × ℕ
  | _, 0 => (none, 0)
  | a, fuel + 1 =>
    if 20 < a then (none, 0)
    else
      let guardPool := if 12 ≤ a then poolSwitch else pool0
      if guardPool.length ≤ 1 then (none, 0)
      else
        let drawPool := if 11 ≤ a then poolSwitch else pool0
        let s := drawPool.getD (draw a % drawPool.length) 0
        if s ≠ orig then (some s, 1)
        else
          let r := negSearchAux orig pool0 poolSwitch draw (a + 1) fuel
          (r.1, r.2 + 1)

/-- One endpoint search, started with `attempts = 0` and enough fuel for the
whole loop. -/
def negSearch (orig : ℕ) (pool0 poolSwitch : List ℕ) (draw : ℕ → ℕ) :
    Option ℕ × ℕ :=
  negSearchAux orig pool0 poolSwitch draw 0 22

lemma negSearchAux_ne_orig (orig : ℕ) (pool0 poolSwitch : List ℕ) (draw : ℕ → ℕ) :
    ∀ (fuel a : ℕ) (s : ℕ),
      (negSearchAux orig pool0 poolSwitch draw a fuel).1 = some s → s ≠ orig := by
  intro fuel
  induction fuel with
  | zero => intro a s h; simp [negSearchAux] at h
  | succ fuel ih =>
    intro a s h
    rw [negSearchAux] at h
    by_cases h20 : 20 < a
    · rw [if_pos h20] at h; simp at h
    · rw [if_neg h20] at h
      simp only at h
      set v := (if 11 ≤ a then poolSwitch else pool0).getD
        (draw a % (if 11 ≤ a then poolSwitch else pool0).length) 0 with hvdef
      by_cases hg : (if 12 ≤ a then poolSwitch else pool0).length ≤ 1
      · rw [if_pos hg] at h
        simp at h
      · rw [if_neg hg] at h
        by_cases hv : v ≠ orig
        · rw [if_pos hv] at h
          have hvs := Option.some_inj.mp h
          subst hvs
          exact hv
        · rw [if_neg hv] at h
          exact ih (a + 1) s h

/-- The per-negative body of `generate_negatives_random` (lines 584-625):
searches a replacement source and/or target and either produces the negative
or drops it (when a changed endpoint search returned `None`, line 624). -/
def genNegRandomOne (pos : Edge) (changeSource changeTarget : Bool)
    (sPool0 sPool1 tPool0 tPool1 : List ℕ) (drawS drawT : ℕ → ℕ) : Option Edge :=
  let source : Option ℕ :=
    if changeSource then (negSearch pos.2.1 sPool0 sPool1 drawS).1 else some pos.2.1
  let target : Option ℕ :=
    if changeTarget then (negSearch pos.2.2 tPool0 tPool1 drawT).1 else some pos.2.2
  match source, target with
  | some s, some t => some (pos.1, s, t)
  | _, _ => none

/-- Initial source candidate pool (lines 566-581).  Note the
`keep_dom_ran = False` branch of the source takes component 0 of the
`(relation, source, target)` triples, exactly as line 574 does. -/
def candidatesSource (grouped : ℕ → List (ℕ × ℕ)) (edges : List Edge)
    (domains : ℕ → List ℕ) (rel : ℕ) (keepDomRan equalProb : Bool) : List ℕ :=
  if equalProb then domains rel
  else if keepDomRan then (grouped rel).map Prod.fst
  else edges.map (fun e => e.1)

/-- Initial target candidate pool (lines 566-581); the `keep_dom_ran = False`
branch takes component 1 of the triples, as line 576 does. -/
def candidatesTarget (grouped : ℕ → List (ℕ × ℕ)) (edges : List Edge)
    (ranges : ℕ → List ℕ) (rel : ℕ) (keepDomRan equalProb : Bool) : List ℕ :=
  if equalProb then ranges rel
  else if keepDomRan then (grouped rel).map Prod.snd
  else edges.map (fun e => e.2.1)

/-- Model of `generate_negatives_random` (lines 551-626): the full per-positive
generation of `number_negatives` negatives, with the switched pools of lines
595-598 and 612-616. -/
def generateNegativesRandom (grouped : ℕ → List (ℕ × ℕ)) (edges : List Edge)
    (domains ranges : ℕ → List ℕ) (entitiesKeys : List ℕ) (pos : Edge)
    (numberNegatives : ℕ) (keepDomRan changeSource changeTarget equalProb : Bool)
    (drawS drawT : ℕ → ℕ → ℕ) : List Edge :=
  let sPool0 := candidatesSource grouped edges domains pos.1 keepDomRan equalProb
  let tPool0 := candidatesTarget grouped edges ranges pos.1 keepDomRan equalProb
  let sPool1 := if keepDomRan then domains pos.1 else entitiesKeys
  let tPool1 := if keepDomRan then ranges pos.1 else entitiesKeys
  (List.range numberNegatives).filterMap
    (fun j => genNegRandomOne pos changeSource changeTarget sPool0 sPool1 tPool0 tPool1
      (drawS j) (drawT j))

/-- C6 is false of the code: with the original source 0 and a two-element
frequency-weighted pool `[0, 0]` both of whose entries equal the original,
(a) if the switched pool is also `[0, 0]`, the loop performs 21 draws — not at
most 20 — before giving up, and (b) if the switched pool is `[0, 5]` and the
oracle always picks index 1, the first successful draw is draw number 12: the
pool is switched only from the 12th draw on, not after 10 failed draws. -/
theorem C6_retry_budget_eval :
    negSearch 0 [0, 0] [0, 0] (fun _ => 0) = (none, 21)
    ∧ negSearch 0 [0, 0] [0, 5] (fun _ => 1) = (some 5, 12) := by
  constructor
  · rfl
  · rfl

/-- C5, amended part: for the random strategies, every negative returned by
`generate_negatives_random` differs from the positive in each corrupted
component (and keeps the original value in each uncorrupted component); the
only other outcome is that no negative is produced for that draw. -/
theorem C5_random_negatives_differ (grouped : ℕ → List (ℕ × ℕ)) (edges : List Edge)
    (domains ranges : ℕ → List ℕ) (entitiesKeys : List ℕ) (pos : Edge)
    (numberNegatives : ℕ) (keepDomRan changeSource changeTarget equalProb : Bool)
    (drawS drawT : ℕ → ℕ → ℕ) (neg : Edge)
    (hmem : neg ∈ generateNegativesRandom grouped edges domains ranges entitiesKeys
      pos numberNegatives keepDomRan changeSource changeTarget equalProb drawS drawT) :
    neg.1 = pos.1
    ∧ (changeSource = true → neg.2.1 ≠ pos.2.1)
    ∧ (changeSource = false → neg.2.1 = pos.2.1)
    ∧ (changeTarget = true → neg.2.2 ≠ pos.2.2)
    ∧ (changeTarget = false → neg.2.2 = pos.2.2) := by
  simp only [generateNegativesRandom, List.mem_filterMap] at hmem
  obtain ⟨j, -, hj⟩ := hmem
  rw [genNegRandomOne] at hj
  try simp only at hj
  rcases hS : (if changeSource then
      (negSearch pos.2.1
        (candidatesSource grouped edges domains pos.1 keepDomRan equalProb)
        (if keepDomRan then domains pos.1 else entitiesKeys) (drawS j)).1
    else some pos.2.1) with _ | s <;>
  rcases hT : (if changeTarget then
      (negSearch pos.2.2
        (candidatesTarget grouped edges ranges pos.1 keepDomRan equalProb)
        (if keepDomRan then ranges pos.1 else entitiesKeys) (drawT j)).1
    else some pos.2.2) with _ | t <;>
  rw [hS, hT] at hj
  · exact Option.noConfusion hj
  · exact Option.noConfusion hj
  · exact Option.noConfusion hj
  have hneg : neg = (pos.1, s, t) := by
    have := hj
    simp only [Option.some_inj] at this
    exact this.symm
  subst hneg
  refine ⟨rfl, ?_, ?_, ?_, ?_⟩
  · intro hcs
    rw [hcs, if_pos rfl] at hS
    exact negSearchAux_ne_orig _ _ _ _ 22 0 s hS
  · intro hcs
    rw [hcs] at hS
    simp at hS
    exact hS.symm
  · intro hct
    rw [hct, if_pos rfl] at hT
    exact negSearchAux_ne_orig _ _ _ _ 22 0 t hT
  · intro hct
    rw [hct] at hT
    simp at hT
    exact hT.symm

/-- Grouped edges of a concrete graph with a single relation 3 whose
`(source, target)` pairs are `{(1, 2), (1, 4)}`. -/
def groupedC5 : ℕ → List (ℕ × ℕ) := fun r => if r = 3 then [(1, 2), (1, 4)] else []

/-- Domains of `groupedC5`. -/
def domainsC5 : ℕ → List ℕ := fun r => if r = 3 then [1] else []

/-- Ranges of `groupedC5`. -/
def rangesC5 : ℕ → List ℕ := fun r => if r = 3 then [2, 4] else []

/-- Witness for C5's amended statement: a concrete `change_target` run on
`groupedC5` produces the negative `(3, 1, 4)` from the positive `(3, 1, 2)`:
the source is kept, the corrupted target differs. -/
theorem C5_random_negatives_differ_witness :
    ((3, 1, 4) : Edge).1 = ((3, 1, 2) : Edge).1
    ∧ (false = true → ((3, 1, 4) : Edge).2.1 ≠ ((3, 1, 2) : Edge).2.1)
    ∧ (false = false → ((3, 1, 4) : Edge).2.1 = ((3, 1, 2) : Edge).2.1)
    ∧ (true = true → ((3, 1, 4) : Edge).2.2 ≠ ((3, 1, 2) : Edge).2.2)
    ∧ (true = false → ((3, 1, 4) : Edge).2.2 = ((3, 1, 2) : Edge).2.2) :=
  C5_random_negatives_differ groupedC5 [(3, 1, 2), (3, 1, 4)] domainsC5 rangesC5
    [1, 2, 4] (3, 1, 2) 1 true false true false (fun _ _ => 1) (fun _ _ => 1)
    (3, 1, 4) (by decide)

/-! ## PPRComputer (`DatasetsGenerator.compute_PPR`, lines 267-299) and the
PPR sampling strategy (`generate_negatives_PPR`, lines 524-549) -/

/-- The count `entity_count[t]` for one entity's outgoing edge list (lines 285-288):
the number of outgoing edges whose target is `t`. -/
def targetFrequency (edges : List Edge) (t : ℕ) : ℕ :=
  (edges.filter (fun e => decide (e.2.2 = t))).length

/-- One entry of `matrix_movements` (lines 281-291).  The matrix is created
with `np.empty` (line 281), whose contents are arbitrary; line 291 writes
`frequency / len(edges)` only for the targets that occur (frequency > 0), so
every other entry keeps the arbitrary initial contents, modelled by the
`garbage` parameter. -/
def movementsEntry (garbage : ℕ → ℕ → ℚ) (entityEdges : ℕ → List Edge)
    (e t : ℕ) : ℚ :=
  let edges := entityEdges e
  let c := targetFrequency edges t
  if 0 < c then (c : ℚ) / (edges.length : ℚ) else garbage e t

/-- Matrix product with indices drawn from the entity list (`np.matmul` over
the encoded entity indices). -/
def matMulEnts (ents : List ℕ) (A B : ℕ → ℕ → ℚ) : ℕ → ℕ → ℚ :=
  fun i j => (ents.map (fun k => A i k * B k j)).sum

/-- The identity matrix (`np.identity`). -/
def identityMatrix : ℕ → ℕ → ℚ := fun i j => if i = j then 1 else 0

/-- The ranks iteration (lines 295-298): starting from the identity,
`ranks = (1 - alpha) * np.matmul(ranks, matrix_movements) + alpha * initial`
for the given number of steps. -/
def pprRanks (ents : List ℕ) (M : ℕ → ℕ → ℚ) (alpha : ℚ) : ℕ → (ℕ → ℕ → ℚ)
  | 0 => identityMatrix
  | n + 1 => fun i j =>
      (1 - alpha) * matMulEnts ents (pprRanks ents M alpha n) M i j +
        alpha * identityMatrix i j

/-- Model of `generate_negatives_PPR` (lines 524-549): the source candidates are the
entities with strictly positive rank from the positive's source that lie in
the relation's domain (line 538), targets analogously (line 539); the
`np.random.choice` draws over the normalized positive probabilities are
modelled by index oracles (every index of the filtered pool has positive
probability).  No candidate is ever excluded for being equal to the
positive's own source or target. -/
def generateNegativesPPR (ents : List ℕ) (ranks : ℕ → ℕ → ℚ)
    (domain range : List ℕ) (pos : Edge) (numberNegatives : ℕ)
    (pickS pickT : ℕ → ℕ) : List Edge :=
  let sources := ents.filter
    (fun e => decide (0 < ranks pos.2.1 e) && decide (e ∈ domain))
  let targets := ents.filter
    (fun e => decide (0 < ranks pos.2.2 e) && decide (e ∈ range))
  (List.range numberNegatives).map (fun i =>
    (pos.1, sources.getD (pickS i % sources.length) 0,
      targets.getD (pickT i % targets.length) 0))

/-- Outgoing-edge map of the dense two-entity graph of relation 5 whose edges
are all four pairs over `{0, 1}` (so every movements-matrix entry is written
and the `np.empty` garbage is irrelevant). -/
def entityEdgesC5 : ℕ → List Edge :=
  fun e => if e = 0 then [(5, 0, 0), (5, 0, 1)]
    else if e = 1 then [(5, 1, 0), (5, 1, 1)] else []

/-- The ranks computed by `compute_PPR` on the dense two-entity graph, with
one step and `alpha = 1/2`; every movements entry is written, so the
`np.empty` garbage (here instantiated to 0) is irrelevant. -/
def ranksC5 : ℕ → ℕ → ℚ :=
  pprRanks [0, 1] (movementsEntry (fun _ _ => 0) entityEdgesC5) (1/2) 1

lemma ranksC5_eval (i j : ℕ) (hi : i < 2) (hj : j < 2) :
    ranksC5 i j = if i = j then 3/4 else 1/4 := by
  interval_cases i <;> interval_cases j <;>
    norm_num [ranksC5, pprRanks, matMulEnts, identityMatrix, movementsEntry,
      entityEdgesC5, targetFrequency, List.filter]

/-- C5 is false of the code for the PPR strategy: on the dense two-entity
graph, with the ranks actually computed by `compute_PPR` (one step,
`alpha = 1/2`), the positive `(5, 0, 1)` can produce the negative `(5, 0, 0)`
— its corrupted source 0 equals the positive's source 0 (the PPR pools always
contain the original endpoints, which have positive self-rank). -/
theorem C5_ppr_counterexample :
    generateNegativesPPR [0, 1] ranksC5
        [0, 1] [0, 1] (5, 0, 1) 1 (fun _ => 0) (fun _ => 0) = [(5, 0, 0)]
    ∧ ((5, 0, 0) : Edge).2.1 = ((5, 0, 1) : Edge).2.1 := by
  have h00 : decide ((0 : ℚ) < ranksC5 0 0) = true :=
    decide_eq_true (by rw [ranksC5_eval 0 0 (by norm_num) (by norm_num)]; norm_num)
  have h01 : decide ((0 : ℚ) < ranksC5 0 1) = true :=
    decide_eq_true (by rw [ranksC5_eval 0 1 (by norm_num) (by norm_num)]; norm_num)
  have h10 : decide ((0 : ℚ) < ranksC5 1 0) = true :=
    decide_eq_true (by rw [ranksC5_eval 1 0 (by norm_num) (by norm_num)]; norm_num)
  have h11 : decide ((0 : ℚ) < ranksC5 1 1) = true :=
    decide_eq_true (by rw [ranksC5_eval 1 1 (by norm_num) (by norm_num)]; norm_num)
  refine ⟨?_, rfl⟩
  simp [generateNegativesPPR, List.filter, h00, h01, h10, h11]

/-- Outgoing-edge map of a graph with one edge `(7, 0, 1)`: entity 1 has no
outgoing edges, and entity 0's row only has its `(0, 1)` entry written. -/
def entityEdgesC8 : ℕ → List Edge := fun e => if e = 0 then [(7, 0, 1)] else []

/-- C8 is false of the code: `matrix_movements` is allocated with `np.empty`,
not `np.zeros`, so the row of the zero-out-degree entity 1 keeps the arbitrary
initial contents (here 37) instead of being all zero, and even the unwritten
entry `(0, 0)` of entity 0's row keeps the garbage; only the written entry
`(0, 1)` holds `count / out-degree = 1`. -/
theorem C8_ppr_empty_matrix_eval :
    movementsEntry (fun _ _ => 37) entityEdgesC8 1 0 = 37
    ∧ movementsEntry (fun _ _ => 37) entityEdgesC8 1 1 = 37
    ∧ movementsEntry (fun _ _ => 37) entityEdgesC8 0 0 = 37
    ∧ movementsEntry (fun _ _ => 37) entityEdgesC8 0 1 = 1 := by
  refine ⟨rfl, rfl, rfl, ?_⟩
  norm_num [movementsEntry, entityEdgesC8, targetFrequency, List.filter]

/-! ## Negatives count per positive (`generate_negatives`, lines 649-653)

```python
factor_copy = negatives_factor
num_negatives = 0
while random() < factor_copy:
    factor_copy -= 1.0
    num_negatives += 1
```
`random()` returns a value in `[0, 1)`, modelled by the oracle `draws` (draw
`i` is the value used at the `i`-th loop test). -/

/-- The loop body, with structural fuel; `numNegatives` supplies enough fuel
for the whole loop, which performs at most `⌈factor⌉ + 1` tests. -/
def numNegativesAux (draws : ℕ → ℚ) : ℕ → ℚ → ℕ → ℕ
  | 0, _, _ => 0
  | fuel + 1, factor, i =>
    if draws i < factor then numNegativesAux draws fuel (factor - 1) (i + 1) + 1 else 0

/-- The number of negatives requested for one positive. -/
def numNegatives (factor : ℚ) (draws : ℕ → ℚ) : ℕ :=
  numNegativesAux draws ((⌈factor⌉).toNat + 1) factor 0

lemma numNegativesAux_eval (draws : ℕ → ℚ) (hd : ∀ j, 0 ≤ draws j ∧ draws j < 1) :
    ∀ (n : ℕ) (factor : ℚ) (i fuel : ℕ), 0 ≤ factor → (⌊factor⌋).toNat = n →
      n + 1 ≤ fuel →
      numNegativesAux draws fuel factor i =
        n + (if draws (i + n) < Int.fract factor then 1 else 0) := by
  intro n
  induction n with
  | zero =>
    intro factor i fuel h0 hfl hfuel
    obtain ⟨fuel, rfl⟩ : ∃ f, fuel = f + 1 := ⟨fuel - 1, by omega⟩
    have hfloor0 : ⌊factor⌋ = 0 := by
      have h00 : 0 ≤ ⌊factor⌋ := Int.floor_nonneg.mpr h0
      omega
    have hlt1 : factor < 1 := (Int.floor_eq_zero_iff.mp hfloor0).2
    have hfr : Int.fract factor = factor := Int.fract_eq_self.mpr ⟨h0, hlt1⟩
    rw [numNegativesAux]
    by_cases hi : draws i < factor
    · rw [if_pos hi]
      have hnext : numNegativesAux draws fuel (factor - 1) (i + 1) = 0 := by
        cases fuel with
        | zero => rfl
        | succ f =>
          rw [numNegativesAux, if_neg]
          have := (hd (i + 1)).1
          intro hcon
          linarith
      rw [hnext, hfr, Nat.add_zero, if_pos (by simpa using hi)]
    · rw [if_neg hi, hfr, if_neg (by simpa using hi)]
  | succ n ih =>
    intro factor i fuel h0 hfl hfuel
    obtain ⟨fuel, rfl⟩ : ∃ f, fuel = f + 1 := ⟨fuel - 1, by omega⟩
    have hfn : ⌊factor⌋ = (n : ℤ) + 1 := by
      have h00 : 0 ≤ ⌊factor⌋ := Int.floor_nonneg.mpr h0
      omega
    have h1f : (1 : ℚ) ≤ factor := by
      have : (1 : ℤ) ≤ ⌊factor⌋ := by omega
      exact_mod_cast Int.le_floor.mp this
    have hdi := hd i
    rw [numNegativesAux, if_pos (lt_of_lt_of_le hdi.2 h1f)]
    have hfl' : (⌊factor - 1⌋).toNat = n := by
      have : factor - 1 = factor - ((1 : ℤ) : ℚ) := by norm_num
      rw [this, Int.floor_sub_int, hfn]
      simp
    have hrec := ih (factor - 1) (i + 1) fuel (by linarith) hfl' (by omega)
    rw [hrec]
    have hfr : Int.fract (factor - 1) = Int.fract factor := by
      have : factor - 1 = factor - ((1 : ℤ) : ℚ) := by norm_num
      rw [this, Int.fract_sub_int]
    rw [hfr]
    have hidx : i + 1 + n = i + (n + 1) := by omega
    rw [hidx]
    omega

/-- C7: for every `negatives_factor > 0` and any sequence of uniform draws in
`[0, 1)`, the number of negatives requested for a positive is exactly
`⌊factor⌋` plus one more exactly when the final draw is below the fractional
remainder of the factor; in particular the count is always `⌊factor⌋` or
`⌊factor⌋ + 1`. -/
theorem C7_negatives_count (factor : ℚ) (draws : ℕ → ℚ) (hf : 0 < factor)
    (hd : ∀ j, 0 ≤ draws j ∧ draws j < 1) :
    numNegatives factor draws =
      (⌊factor⌋).toNat + (if draws ((⌊factor⌋).toNat) < Int.fract factor then 1 else 0)
    ∧ (numNegatives factor draws = (⌊factor⌋).toNat ∨
        numNegatives factor draws = (⌊factor⌋).toNat + 1) := by
  have hfuel : (⌊factor⌋).toNat + 1 ≤ (⌈factor⌉).toNat + 1 := by
    have := Int.toNat_le_toNat (Int.floor_le_ceil factor)
    omega
  have h := numNegativesAux_eval draws hd (⌊factor⌋).toNat factor 0
    ((⌈factor⌉).toNat + 1) hf.le rfl hfuel
  have h' : numNegatives factor draws =
      (⌊factor⌋).toNat + (if draws ((⌊factor⌋).toNat) < Int.fract factor then 1 else 0) := by
    rw [numNegatives, h]
    simp
  refine ⟨h', ?_⟩
  rw [h']
  split
  · exact Or.inr rfl
  · exact Or.inl rfl

/-- Witness for C7 at `factor = 5/2` with all draws `1/4`: the count is
`⌊5/2⌋ = 2` plus one extra because the final draw `1/4` is below the
fractional remainder `1/2`. -/
theorem C7_negatives_count_witness :
    numNegatives (5/2) (fun _ => 1/4) =
      (⌊(5/2 : ℚ)⌋).toNat +
        (if (fun _ => (1/4 : ℚ)) ((⌊(5/2 : ℚ)⌋).toNat) < Int.fract ((5/2 : ℚ)) then 1 else 0)
    ∧ (numNegatives (5/2) (fun _ => 1/4) = (⌊(5/2 : ℚ)⌋).toNat ∨
        numNegatives (5/2) (fun _ => 1/4) = (⌊(5/2 : ℚ)⌋).toNat + 1) :=
  C7_negatives_count (5/2) (fun _ => 1/4) (by norm_num)
    (fun _ => ⟨by norm_num, by norm_num⟩)

/-! ## `generate_negatives` for one bucket (lines 628-674) -/

/-- A train or test bucket of one split: positive edges and negative edges. -/
structure BucketState where
  positive : List Edge
  negative : List Edge

/-- The per-positive loop of lines 646-673: positives of ignored relations are
skipped (line 648); a positive whose generation returns no negatives either
adds its relation to the ignored set (`reject_rel_after_failure`, lines
670-673) or is simply skipped.  `gen` abstracts the per-positive negative
generation (factor draws plus strategy call, lines 649-667).  Returns the
accumulated negatives and the final ignored set. -/
def genNegLoop (gen : Edge → List Edge) (reject : Bool) :
    List Edge → List ℕ → List Edge × List ℕ
  | [], ignored => ([], ignored)
  | p :: ps, ignored =>
    if p.1 ∈ ignored then genNegLoop gen reject ps ignored
    else
      let new := gen p
      if 0 < new.length then
        let r := genNegLoop gen reject ps ignored
        (new ++ r.1, r.2)
      else if reject then genNegLoop gen reject ps (p.1 :: ignored)
      else genNegLoop gen reject ps ignored

/-- Model of `generate_negatives` on one bucket (lines 628-674).  Lines 643-644 clear
the stored negatives when `clean_before` is set, but line 674 then assigns the
freshly generated list to the bucket unconditionally, so the cleared (or
uncleared) intermediate value is dead. -/
def generateNegativesBucket (st : BucketState) (cleanBefore reject : Bool)
    (ignored : List ℕ) (gen : Edge → List Edge) : BucketState :=
  let _negativeAfterClean := if cleanBefore then ([] : List Edge) else st.negative
  let result := genNegLoop gen reject st.positive ignored
  { positive := st.positive, negative := result.1 }

/-- C10: after a call to `generate_negatives` for a bucket, the bucket's
negative collection equals exactly the list generated by that call; the
negatives present before the call and the `clean_before` flag have no
influence, so `clean_before = False` never preserves previously generated
negatives. -/
theorem C10_generate_negatives_overwrites (P N N' : List Edge)
    (c c' reject : Bool) (ignored : List ℕ) (gen : Edge → List Edge) :
    (generateNegativesBucket ⟨P, N⟩ c reject ignored gen).negative =
      (genNegLoop gen reject P ignored).1
    ∧ (generateNegativesBucket ⟨P, N⟩ c reject ignored gen).negative =
      (generateNegativesBucket ⟨P, N'⟩ c' reject ignored gen).negative :=
  ⟨rfl, rfl⟩

/-! ## Configuration handling (`main`, lines 713-725, and the strategy
dispatch of `generate_negatives`, lines 654-668) -/

/-- The recognized strategy names (lines 654-666). -/
def negStrategies : List String :=
  ["change_source", "change_target", "change_both", "change_source_random",
   "change_target_random", "change_both_random", "PPR"]

/-- The strategy dispatch (lines 654-668): an unrecognized strategy name
leaves `new_negatives` unbound and line 668 raises `NameError` at the first
processed positive; with no positives the loop body never runs and no error is
raised. -/
def dispatchNegatives (strategy : String) (positives : List Edge)
    (gen : Edge → List Edge) : Except String (List Edge) :=
  if strategy ∈ negStrategies then .ok (positives.bind gen)
  else if positives.isEmpty then .ok []
  else .error "NameError: name new_negatives is not defined"

/-- The part of `main` (lines 713-725) relevant to configuration errors:
pruning (inside `read`), splitting (split index 0), then negative generation
on the test bucket.  No step validates fractions, factors or the strategy
name before processing starts. -/
def mainPipeline (grouped : List (ℕ × ℕ)) (groupedEdges : ℕ → List (ℕ × ℕ))
    (total minNum : ℕ) (reach testingFraction : ℚ) (strategy : String)
    (gen : Edge → List Edge) :
    List ℕ × (List Edge × List Edge) × Except String (List Edge) :=
  let accepted := (acceptedRels grouped total minNum reach).map Prod.fst
  let split := accepted.foldr (fun rel acc =>
    let st := splitRelEdges ((groupedEdges rel).map (fun p => (rel, p.1, p.2))) 1 0
      testingFraction
    (st.1 ++ acc.1, st.2 ++ acc.2)) ([], [])
  (accepted, split, dispatchNegatives strategy split.2 gen)

/-- Grouped edges of the two-edge, one-relation graph used for C9. -/
def groupedEdgesC9 : ℕ → List (ℕ × ℕ) := fun r => if r = 0 then [(1, 2), (3, 4)] else []

/-- C9 is false of the code: with the invalid configuration
`TESTING_FRACTION = 3/2`, `NUMBER_NEGATIVES = -1`, strategy `"bogus"`, the
program does not fail fast: it reads, prunes, and splits (producing a test
bucket with a duplicated edge and an empty train bucket from the out-of-range
fraction), and only then the unknown strategy raises `NameError` inside
negative generation; moreover, with a recognized strategy nothing fails at
all: the non-positive factor silently requests zero negatives. -/
theorem C9_no_fail_fast_eval :
    mainPipeline [(0, 2)] groupedEdgesC9 2 0 1 (3/2) "bogus" (fun _ => []) =
      ([0], (([], [(0, 1, 2), (0, 3, 4), (0, 1, 2)]) : List Edge × List Edge),
        .error "NameError: name new_negatives is not defined")
    ∧ dispatchNegatives "change_target" [(0, 1, 2)] (fun _ => []) = .ok []
    ∧ numNegatives (-1) (fun _ => 0) = 0 := by
  have hacc : acceptedRels [(0, 2)] 2 0 1 = [(0, 2)] := by
    have hc : candidateRels [(0, 2)] 0 = [(0, 2)] := rfl
    rw [acceptedRels, hc, acceptRels, if_pos (by norm_num)]
  have hnum : splitNumTest [(0, 1, 2), (0, 3, 4)] (3/2) = 3 := by
    rw [splitNumTest]
    norm_num
    rfl
  have hoff : splitOffset [(0, 1, 2), (0, 3, 4)] 1 0 = 0 := by
    rw [splitOffset]
    norm_num
  have hsplit : splitRelEdges [(0, 1, 2), (0, 3, 4)] 1 0 (3/2) =
      ([], [(0, 1, 2), (0, 3, 4), (0, 1, 2)]) := by
    rw [splitRelEdges]
    rw [hnum, hoff]
    rfl
  have hceil : ((⌈(-1 : ℚ)⌉).toNat + 1) = 1 := by
    have hm1 : (⌈(-1 : ℚ)⌉ : ℤ) = -1 := by
      rw [show (-1 : ℚ) = ((-1 : ℤ) : ℚ) by norm_num, Int.ceil_intCast]
    rw [hm1]
    rfl
  refine ⟨?_, rfl, ?_⟩
  · rw [mainPipeline]
    simp only [hacc]
    have hmap : (groupedEdgesC9 0).map (fun p => ((0 : ℕ), p.1, p.2)) =
        [(0, 1, 2), (0, 3, 4)] := rfl
    simp only [List.foldr, hmap, hsplit]
    rfl
  · rw [numNegatives, hceil, numNegativesAux, if_neg (by norm_num)]

end AYNEC
